import Mathlib

/-!
Formal model of the squish shell's core (tokenizer, parser, word expansion,
alias persistence, job table, executor), shallowly embedded from the Rust
sources in src/.  Rust `String`s are modelled as `List Char`; effectful
collaborators (environment variables, command substitution, the filesystem
glob, spawned processes, builtins) are modelled as explicit oracle records
passed to the functions that consult them.
-/

namespace Squish

/-- Rust `String` / `&str`, modelled as a list of characters. -/
abbrev Str := List Char

/-- Shorthand for turning a Lean string literal into the `Str` model. -/
def str (s : String) : Str := s.toList

/-- `ShellError` from src/error.rs (the `Io` payload is kept as its display text). -/
inductive ShellError where
  | io (msg : Str)
  | lineEditor (msg : Str)
  | commandNotFound (program : Str)
  | execFailed (program : Str) (message : Str)
  | other (msg : Str)
  deriving DecidableEq, Repr

deriving instance DecidableEq for Except

/-- `Token` from src/parser.rs. -/
inductive Token where
  | word (text : Str)
  | pipe
  | redirectOut
  | redirectAppend
  | redirectIn
  | andOp
  | orOp
  | background
  deriving DecidableEq, Repr

/-- `CommandPart` from src/parser.rs. -/
inductive CommandPart where
  | simple (argv : List Str) (background : Bool)
  | pipe (left right : CommandPart)
  | redirectOut (cmd : CommandPart) (file : Str) (append : Bool)
  | redirectIn (cmd : CommandPart) (file : Str)
  | chain (left right : CommandPart) (and : Bool)
  deriving DecidableEq, Repr

/-! ## Tokenizer (src/parser.rs, `tokenize`)

The Rust scanner keeps two quote flags and a pending word buffer `current`.
`tokenizeAux` returns both the token list and the final values of the two
quote flags (`in_single`, `in_double`); the source function returns only the
tokens (wrapped in `Ok` — no path of the Rust code produces an `Err`). -/

/-- Flush the pending word buffer before emitting further tokens, as the
source does before every operator and at whitespace/end of input. -/
def flushTok (cur : Str) (ts : List Token) : List Token :=
  if cur = [] then ts else Token.word cur :: ts

def tokenizeAux : Nat → List Char → Bool → Bool → Str → List Token × Bool × Bool
  | 0, _, inS, inD, cur => (flushTok cur [], inS, inD)
  | _ + 1, [], inS, inD, cur => (flushTok cur [], inS, inD)
  | fuel + 1, c :: cs, inS, inD, cur =>
    if c = '\'' ∧ inD = false then tokenizeAux fuel cs (!inS) inD cur
    else if c = '"' ∧ inS = false then tokenizeAux fuel cs inS (!inD) cur
    else if (c = ' ' ∨ c = '\t') ∧ inS = false ∧ inD = false then
      let r := tokenizeAux fuel cs inS inD []
      (flushTok cur r.1, r.2)
    else if c = '|' ∧ inS = false ∧ inD = false then
      if cs.head? = some '|' then
        let r := tokenizeAux fuel cs.tail inS inD []
        (flushTok cur (Token.orOp :: r.1), r.2)
      else
        let r := tokenizeAux fuel cs inS inD []
        (flushTok cur (Token.pipe :: r.1), r.2)
    else if c = '&' ∧ inS = false ∧ inD = false then
      if cs.head? = some '&' then
        let r := tokenizeAux fuel cs.tail inS inD []
        (flushTok cur (Token.andOp :: r.1), r.2)
      else
        let r := tokenizeAux fuel cs inS inD []
        (flushTok cur (Token.background :: r.1), r.2)
    else if c = '>' ∧ inS = false ∧ inD = false then
      if cs.head? = some '>' then
        let r := tokenizeAux fuel cs.tail inS inD []
        (flushTok cur (Token.redirectAppend :: r.1), r.2)
      else
        let r := tokenizeAux fuel cs inS inD []
        (flushTok cur (Token.redirectOut :: r.1), r.2)
    else if c = '<' ∧ inS = false ∧ inD = false then
      let r := tokenizeAux fuel cs inS inD []
      (flushTok cur (Token.redirectIn :: r.1), r.2)
    else tokenizeAux fuel cs inS inD (cur ++ [c])

/-- `tokenize` from src/parser.rs (the token list; the source wraps it in
`Ok` — no path of the Rust code produces an `Err`).  Every step of the scan
consumes at least one character and one unit of fuel, so the fuel
`input.length + 1` never runs out; the fuel-0 case is unreachable (and
returns the same value as the end-of-input case). -/
def tokenize (input : Str) : List Token :=
  (tokenizeAux (input.length + 1) input false false []).1

/-- The tokenizer's quote flags (`in_single`, `in_double`) at end of scan. -/
def tokenizeFlags (input : Str) : Bool × Bool :=
  (tokenizeAux (input.length + 1) input false false []).2

/-! ## Word expansion (src/parser.rs)

The expander consults the process environment (`std::env::var`), runs
`sh -c` for command substitution, and matches glob patterns against the
filesystem.  These effects are abstracted into an `ExpCtx` oracle record:
`home` is the value of `HOME` (`none` when unset), `env` is the environment,
`subst cmd` is the raw stdout of the substituted command (`none` when the
spawn fails), and `glob pat` is the list of matching paths (in the source,
glob errors and non-UTF-8 paths contribute no entries, which the oracle
absorbs by just returning the resulting list). -/

structure ExpCtx where
  home : Option Str
  env : Str → Option Str
  subst : Str → Option Str
  glob : Str → List Str

/-- `expand_tilde` from src/parser.rs. -/
def expand_tilde (ctx : ExpCtx) (input : Str) : Str :=
  match ctx.home with
  | none => input
  | some home =>
    if input = ['~'] then home
    else if input.take 2 = ['~', '/'] then home ++ '/' :: input.drop 2
    else input

/-- Scan characters up to (and consuming) a delimiter, as the source's
`while let Some(c) = chars.next() { if c == stop { break; } buf.push(c); }`
loops for `` ` ``-substitution, `${NAME}` and quoted alias values.
Returns the scanned prefix and the remainder after the delimiter. -/
def scanUntil (stop : Char) : List Char → Str × List Char
  | [] => ([], [])
  | c :: rest =>
    if c = stop then ([], rest)
    else
      let r := scanUntil stop rest
      (c :: r.1, r.2)

/-- The nested-parenthesis capture loop of `$(...)` in `expand_word_with_subst`:
a running depth counter starting at the caller's value; `(` increments,
`)` decrements and ends the capture at depth 0 (the final `)` is dropped). -/
def captureParen : List Char → Nat → Str × List Char
  | [], _ => ([], [])
  | c :: rest, depth =>
    let d1 := if c = '(' then depth + 1 else depth
    let d2 := if c = ')' then d1 - 1 else d1
    if c = ')' ∧ d2 = 0 then ([], rest)
    else
      let r := captureParen rest d2
      (c :: r.1, r.2)

/-- Rust `str::trim_start` restricted to the whitespace test used throughout. -/
def trimStart (l : Str) : Str := l.dropWhile Char.isWhitespace

/-- Rust `str::trim_end`. -/
def trimEnd (l : Str) : Str := (l.reverse.dropWhile Char.isWhitespace).reverse

/-- Rust `str::trim` (both ends). -/
def trim (l : Str) : Str := trimEnd (trimStart l)

/-- `execute_command_subst` from src/parser.rs: run the captured text via
`sh -c`; a spawn failure becomes a generic expansion error, a captured
stdout is trimmed. -/
def execute_command_subst (ctx : ExpCtx) (cmd : Str) : Except ShellError Str :=
  match ctx.subst cmd with
  | none => .error (.other (str "command substitution failed"))
  | some out => .ok (trim out)

/-- The variable-name test of the bare `$NAME` scan (the source uses Rust's
`char::is_alphanumeric`, here restricted to the ASCII range, plus `_`). -/
def isVarChar (c : Char) : Bool := c.isAlphanum || c = '_'

/-- The character scan of `expand_word_with_subst` from src/parser.rs
(after tilde expansion): handles `$(...)`, `${NAME}`, `$NAME`, a bare `$`,
and backtick substitution, copying all other characters through.  Every
step of the source loop consumes at least one input character, so the scan
is driven by a fuel that starts one above the input length and never runs
out (the fuel-exhaustion case is unreachable for the fuel the caller
supplies). -/
def expandScan (ctx : ExpCtx) : Nat → List Char → Except ShellError Str
  | 0, _ => .ok []
  | _ + 1, [] => .ok []
  | fuel + 1, c :: rest =>
    if c = '$' then
      if rest.head? = some '(' then
        let r := captureParen rest.tail 1
        match execute_command_subst ctx r.1 with
        | .error e => .error e
        | .ok out => (expandScan ctx fuel r.2).map (out ++ ·)
      else if rest.head? = some '{' then
        let r := scanUntil '}' rest.tail
        let val := match ctx.env r.1 with | some v => v | none => []
        (expandScan ctx fuel r.2).map (val ++ ·)
      else
        let name := rest.takeWhile isVarChar
        if name = [] then (expandScan ctx fuel rest).map ('$' :: ·)
        else
          let val := match ctx.env name with | some v => v | none => []
          (expandScan ctx fuel (rest.dropWhile isVarChar)).map (val ++ ·)
    else if c = '`' then
      let r := scanUntil '`' rest
      match execute_command_subst ctx r.1 with
      | .error e => .error e
      | .ok out => (expandScan ctx fuel r.2).map (out ++ ·)
    else (expandScan ctx fuel rest).map (c :: ·)

/-- `expand_word_with_subst` from src/parser.rs. -/
def expand_word_with_subst (ctx : ExpCtx) (word : Str) : Except ShellError Str :=
  let s := expand_tilde ctx word
  expandScan ctx (s.length + 1) s

/-- The glob-metacharacter test at the top of `expand_glob`. -/
def hasGlobMeta (word : Str) : Bool :=
  word.contains '*' || word.contains '?' || word.contains '['

/-- `expand_glob` from src/parser.rs: words without metacharacters produce no
matches at all (the caller then keeps the literal); otherwise the filesystem
is consulted. -/
def expand_glob (ctx : ExpCtx) (word : Str) : List Str :=
  if !hasGlobMeta word then [] else ctx.glob word

/-- The per-word argv contribution in `parse_simple`: `if globbed.is_empty()
{ argv.push(expanded) } else { argv.extend(globbed) }`. -/
def word_argv_entries (ctx : ExpCtx) (expanded : Str) : List Str :=
  let globbed := expand_glob ctx expanded
  if globbed = [] then [expanded] else globbed

/-! ## Parser (src/parser.rs)

All four layers consume a token slice and report how many tokens of that
slice they consumed, exactly as the Rust code indexes `&tokens[i..]`.
`parse_simple` and `parse_redirect` are directly structural.  `parse_pipe`'s
loop advances with `i += next_i` and terminates because each stage consumes
at least one token.  `parse_chain`'s loop instead assigns `i = next_i`,
where `next_i` is relative to the sub-slice that was just parsed — the loop
does not terminate on all inputs, so it is modelled with a fuel parameter;
`none` means the fuel ran out, i.e. the source loop had not exited after
that many iterations. -/

/-- The word-collecting loop of `parse_simple`: returns the collected argv,
the number of tokens consumed, and the `background` flag.  A `Background`
token is consumed and stops the scan; any other non-word token stops the
scan without being consumed. -/
def simpleLoop (ctx : ExpCtx) : List Token → Except ShellError (List Str × Nat × Bool)
  | [] => .ok ([], 0, false)
  | Token.word w :: rest => do
    let expanded ← expand_word_with_subst ctx w
    let entries := word_argv_entries ctx expanded
    let r ← simpleLoop ctx rest
    pure (entries ++ r.1, r.2.1 + 1, r.2.2)
  | Token.background :: _ => .ok ([], 1, true)
  | _ => .ok ([], 0, false)

/-- `parse_simple` from src/parser.rs. -/
def parse_simple (ctx : ExpCtx) (tokens : List Token) :
    Except ShellError (CommandPart × Nat) :=
  if tokens = [] then .error (.other (str "empty command"))
  else do
    let r ← simpleLoop ctx tokens
    if r.1 = [] then .error (.other (str "empty command"))
    else pure (.simple r.1 r.2.2, r.2.1)

/-- `parse_redirect` from src/parser.rs.  The source's `while` loop either
`return`s or `break`s in every arm of its `match`, so it runs at most one
iteration: after the simple command, at most one redirect operator (with its
filename word, tilde-expanded) is consumed. -/
def parse_redirect (ctx : ExpCtx) (tokens : List Token) :
    Except ShellError (CommandPart × Nat) :=
  if tokens = [] then .error (.other (str "empty command"))
  else do
    let r ← parse_simple ctx tokens
    let cmd := r.1
    let i := r.2
    match tokens.drop i with
    | Token.redirectOut :: rest =>
      match rest with
      | [] => .error (.other (str "redirect output: missing filename"))
      | Token.word file :: _ =>
        pure (.redirectOut cmd (expand_tilde ctx file) false, i + 2)
      | _ => .error (.other (str "redirect output: expected filename"))
    | Token.redirectAppend :: rest =>
      match rest with
      | [] => .error (.other (str "redirect append: missing filename"))
      | Token.word file :: _ =>
        pure (.redirectOut cmd (expand_tilde ctx file) true, i + 2)
      | _ => .error (.other (str "redirect append: expected filename"))
    | Token.redirectIn :: rest =>
      match rest with
      | [] => .error (.other (str "redirect input: missing filename"))
      | Token.word file :: _ =>
        pure (.redirectIn cmd (expand_tilde ctx file), i + 2)
      | _ => .error (.other (str "redirect input: expected filename"))
    | _ => pure (cmd, i)

/-- The stage-collecting loop of `parse_pipe`: parse a redirect-expression,
and if the next token is `|`, consume it and continue (the source loop also
re-checks `i < tokens.len()`, so a trailing `|` at end of input just ends
the loop). -/
def pipeLoop (ctx : ExpCtx) : Nat → List Token →
    Except ShellError (List CommandPart × Nat)
  | 0, _ => .error (.other (str "empty command"))
  | fuel + 1, tokens =>
    match parse_redirect ctx tokens with
    | .error e => .error e
    | .ok (part, n) =>
      match tokens.drop n with
      | Token.pipe :: rest =>
        if rest = [] then .ok ([part], n + 1)
        else
          match pipeLoop ctx fuel rest with
          | .error e => .error e
          | .ok (parts, m) => .ok (part :: parts, n + 1 + m)
      | _ => .ok ([part], n)

/-- `parse_pipe` from src/parser.rs: left-associative fold of the collected
stages into nested `Pipe` nodes.  Every loop iteration strictly shortens
the remaining slice (the recursion continues on the tokens after the
consumed stage and its `|`), so the fuel `tokens.length + 1` supplied here
never runs out; the fuel-0 case is unreachable.  (On an empty slice the
source's loop body never runs and the empty `parts` check fires; in this
model the inner `parse_redirect` call reports the same "empty command"
error.) -/
def parse_pipe (ctx : ExpCtx) (tokens : List Token) :
    Except ShellError (CommandPart × Nat) :=
  match pipeLoop ctx (tokens.length + 1) tokens with
  | .error e => .error e
  | .ok (parts, i) =>
    match parts with
    | [] => .error (.other (str "empty command"))
    | first :: rest => .ok (rest.foldl (fun acc p => .pipe acc p) first, i)

/-- The `ops.into_iter().zip(parts)` fold at the end of `parse_chain`. -/
def foldChain : CommandPart → List Bool → List CommandPart → CommandPart
  | acc, op :: ops, p :: ps => foldChain (.chain acc p op) ops ps
  | acc, _, _ => acc

/-- The `while i < tokens.len()` loop of `parse_chain` from src/parser.rs,
fueled.  Note the faithful modelling of the source's `i = next_i`: the index
returned by `parse_pipe` is relative to the sub-slice `&tokens[i..]` it was
given, but the loop assigns it to the absolute position `i`. -/
def chainLoop (ctx : ExpCtx) :
    Nat → List Token → Nat → List CommandPart → List Bool →
    Option (Except ShellError (List CommandPart × List Bool))
  | 0, _, _, _, _ => none
  | fuel + 1, tokens, i, parts, ops =>
    if i < tokens.length then
      match parse_pipe ctx (tokens.drop i) with
      | .error e => some (.error e)
      | .ok (part, next_i) =>
        let parts2 := parts ++ [part]
        let i2 := next_i
        match tokens.drop i2 with
        | Token.andOp :: _ => chainLoop ctx fuel tokens (i2 + 1) parts2 (ops ++ [true])
        | Token.orOp :: _ => chainLoop ctx fuel tokens (i2 + 1) parts2 (ops ++ [false])
        | _ => some (.ok (parts2, ops))
    else some (.ok (parts, ops))

/-- `parse_chain` from src/parser.rs (fueled, see `chainLoop`). -/
def parse_chain (ctx : ExpCtx) (fuel : Nat) (tokens : List Token) :
    Option (Except ShellError CommandPart) :=
  match chainLoop ctx fuel tokens 0 [] [] with
  | none => none
  | some (.error e) => some (.error e)
  | some (.ok (parts, ops)) =>
    match parts with
    | [] => some (.error (.other (str "empty command")))
    | first :: rest => some (.ok (foldChain first ops rest))

/-- `parse_tokens` from src/parser.rs. -/
def parse_tokens (ctx : ExpCtx) (fuel : Nat) (tokens : List Token) :
    Option (Except ShellError CommandPart) :=
  if tokens = [] then some (.error (.other (str "empty command")))
  else parse_chain ctx fuel tokens

/-- `parse_command_line` from src/parser.rs (`tokenize` never fails, so its
`?` never propagates). -/
def parse_command_line (ctx : ExpCtx) (fuel : Nat) (input : Str) :
    Option (Except ShellError CommandPart) :=
  parse_tokens ctx fuel (tokenize input)

/-- An oracle for a bare environment: `HOME` unset, no variables set, command
substitution fails, and no glob pattern matches anything. -/
def trivialCtx : ExpCtx :=
  { home := none
    env := fun _ => none
    subst := fun _ => none
    glob := fun _ => [] }

/-! ## Line-editor incompleteness detector (src/completion.rs) -/

/-- The quote/backslash scan of `is_incomplete_command`: returns the final
`in_single_quote` / `in_double_quote` flags.  Unlike the tokenizer, a
backslash makes the scan skip the following character. -/
def incompleteScanFlags : List Char → Bool → Bool → Bool → Bool × Bool
  | [], _, s, d => (s, d)
  | c :: rest, bs, s, d =>
    if bs then incompleteScanFlags rest false s d
    else if c = '\\' then incompleteScanFlags rest true s d
    else if c = '\'' ∧ d = false then incompleteScanFlags rest false (!s) d
    else if c = '"' ∧ s = false then incompleteScanFlags rest false s (!d)
    else incompleteScanFlags rest false s d

/-- Rust `str::ends_with(char)` on the model. -/
def endsWithChar (l : Str) (c : Char) : Bool := l.getLast? = some c

/-- `LineHelper::is_incomplete_command` from src/completion.rs: unterminated
quote, trailing backslash (line continuation), or trailing pipe. -/
def is_incomplete_command (line : Str) : Bool :=
  let f := incompleteScanFlags line false false false
  if endsWithChar (trimEnd line) '\\' then true
  else if endsWithChar (trimEnd line) '|' then true
  else f.1 || f.2

/-! ## Alias persistence (src/aliases.rs)

The alias table (a `HashMap` in the source) is modelled for saving as an
association list with distinct keys, and the loaded table as a lookup
function built by successive inserts.  The persisted file is modelled as the
character sequence written by `save_to_file` (each line terminated by the
`writeln!` newline). -/

/-- `value.replace('\'', "'\\''")` from `save_to_file`. -/
def replaceQuote : Str → Str
  | [] => []
  | c :: rest =>
    if c = '\'' then '\'' :: '\\' :: '\'' :: '\'' :: replaceQuote rest
    else c :: replaceQuote rest

/-- The value-quoting step of `save_to_file`: values containing a space or
either quote character are single-quoted with the `'\''` idiom. -/
def escapeAliasValue (v : Str) : Str :=
  if v.contains ' ' || v.contains '\'' || v.contains '"' then
    '\'' :: replaceQuote v ++ ['\'']
  else v

/-- One data line written by `save_to_file`: `alias name=value`. -/
def aliasLine (n v : Str) : Str := str "alias " ++ n ++ '=' :: escapeAliasValue v

/-- Lexicographic comparison on the character lists (Rust `String` `Ord`,
restricted to the ASCII inputs used here), for `sort_by_key`. -/
def strLe : Str → Str → Bool
  | [], _ => true
  | _ :: _, [] => false
  | a :: as_, b :: bs => if a = b then strLe as_ bs else decide (a < b)

/-- Insertion step of the (stable) sort modelling `sorted.sort_by_key`. -/
def insortAlias (p : Str × Str) : List (Str × Str) → List (Str × Str)
  | [] => [p]
  | q :: qs => if strLe p.1 q.1 then p :: q :: qs else q :: insortAlias p qs

/-- The `sort_by_key(|(k, _)| *k)` in `save_to_file`. -/
def sortAliases (t : List (Str × Str)) : List (Str × Str) :=
  t.foldr insortAlias []

/-- Concatenate lines, terminating each with the `writeln!` newline. -/
def joinLines (ls : List Str) : Str :=
  ls.foldr (fun l acc => l ++ '\n' :: acc) []

/-- `save_to_file` from src/aliases.rs: the full character content written to
the alias file (two comment lines, one blank line, then one sorted data line
per alias, each line ending in a newline). -/
def save_to_file (t : List (Str × Str)) : Str :=
  joinLines
    ([str "# Squish aliases - auto-generated", str "# Format: alias name='value'", []]
      ++ (sortAliases t).map (fun p => aliasLine p.1 p.2))

/-- Split on `'\n'` keeping every (possibly empty) piece. -/
def splitOnNl : Str → List Str
  | [] => [[]]
  | c :: rest =>
    if c = '\n' then [] :: splitOnNl rest
    else
      match splitOnNl rest with
      | [] => [[c]]
      | l :: ls => (c :: l) :: ls

/-- `BufRead::lines`: split on `'\n'`, drop the empty piece after a final
newline, and strip one trailing `'\r'` from each line. -/
def linesOf (s : Str) : List Str :=
  if s = [] then []
  else
    let ps := splitOnNl s
    let ps := if s.getLast? = some '\n' then ps.dropLast else ps
    ps.map (fun l => if l.getLast? = some '\r' then l.dropLast else l)

/-- `parse_alias_line` from src/aliases.rs, applied to the text after the
`alias ` prefix: name up to the first `=` (trimmed, must be nonempty), then
a value that is either quoted (scan to the matching quote, ignoring anything
after it) or the whole remainder, trimmed. -/
def parse_alias_line (line : Str) : Option (Str × Str) :=
  let name := line.takeWhile (· ≠ '=')
  let rest0 := line.dropWhile (· ≠ '=')
  if name = [] then none
  else
    let name := trim name
    let rest := rest0.tail
    match rest with
    | q :: rest2 =>
      if q = '\'' ∨ q = '"' then
        let r := scanUntil q rest2
        some (name, trim r.1)
      else some (name, trim rest)
    | [] => some (name, trim [])

/-- Rust `str::strip_prefix` on the model. -/
def stripPrefix (pre s : Str) : Option Str :=
  if s.take pre.length = pre then some (s.drop pre.length) else none

/-- Processing of a single file line inside `load_from_file`: skip blank and
`#` lines, require the `alias ` prefix, and insert a parsed pair into the
table (a `HashMap` insert, modelled as a lookup-function update). -/
def loadLine (m : Str → Option Str) (line : Str) : Str → Option Str :=
  let trimmed := trim line
  if trimmed = [] then m
  else if trimmed.head? = some '#' then m
  else
    match stripPrefix (str "alias ") trimmed with
    | none => m
    | some rest =>
      match parse_alias_line rest with
      | none => m
      | some p => fun k => if k = p.1 then some p.2 else m k

/-- `load_from_file` from src/aliases.rs, as the resulting name-to-value
lookup when starting from an empty table. -/
def load_from_file (s : Str) : Str → Option Str :=
  (linesOf s).foldl loadLine (fun _ => none)

/-- First-match association-list lookup, the reference mapping of a table
with distinct keys. -/
def lookupName : List (Str × Str) → Str → Option Str
  | [], _ => none
  | p :: rest, k => if k = p.1 then some p.2 else lookupName rest k

/-- Hypotheses under which a name survives the persistence round trip:
nonempty, free of `=` and newline, and stable under trimming. -/
def goodAliasName (n : Str) : Prop :=
  n ≠ [] ∧ '=' ∉ n ∧ '\n' ∉ n ∧ trim n = n

/-- Hypotheses under which a value survives the persistence round trip:
free of single quotes and newlines, and stable under trimming. -/
def goodAliasValue (v : Str) : Prop :=
  '\'' ∉ v ∧ '\n' ∉ v ∧ trim v = v

instance (n : Str) : Decidable (goodAliasName n) := by
  unfold goodAliasName
  infer_instance

instance (v : Str) : Decidable (goodAliasValue v) := by
  unfold goodAliasValue
  infer_instance

/-! ## Job table (src/jobs.rs)

A `Job`'s `Arc<Mutex<Option<Child>>>` slot is modelled as an `Option Unit`:
`some ()` while the process handle is present, `none` once `fg` has taken
it.  The outcome of the non-blocking `try_wait` poll in `remove_finished`
and of the blocking `wait` in `fg` depend on the OS, so each such operation
carries an oracle (`exited : Nat → Bool` keyed by job id, and the waited-for
exit code). -/

structure Job where
  id : Nat
  command : Str
  child : Option Unit
  deriving DecidableEq, Repr

structure JobManager where
  jobs : List Job
  next_id : Nat
  deriving DecidableEq, Repr

/-- `JobManager::new`. -/
def JobManager.new : JobManager := { jobs := [], next_id := 1 }

/-- `add_job` from src/jobs.rs: assign `next_id`, increment it, append the
job (with its handle present); the assigned id is returned. -/
def add_job (jm : JobManager) (command : Str) : Nat × JobManager :=
  let id := jm.next_id
  (id, { jobs := jm.jobs ++ [{ id := id, command := command, child := some () }]
         next_id := jm.next_id + 1 })

/-- `remove_finished` from src/jobs.rs: retain a job iff its handle is still
present and the poll does not report it exited (an empty handle — taken by
`fg` — is always evicted). -/
def remove_finished (jm : JobManager) (exited : Nat → Bool) : JobManager :=
  { jm with
    jobs := jm.jobs.filter (fun j =>
      match j.child with
      | some _ => !exited j.id
      | none => false) }

/-- `get_job` from src/jobs.rs: linear first-match lookup by id. -/
def get_job (jm : JobManager) (id : Nat) : Option Job :=
  jm.jobs.find? (fun j => j.id = id)

/-- The `fg` builtin from src/shell.rs: take the handle out of the matching
job (leaving the slot empty) and block on the wait, returning its status;
with no matching job or an already-empty slot, report status 1.  (Taking the
handle mutates only that job's slot; ids never change.) -/
def fg_builtin (jm : JobManager) (id : Nat) (waitCode : Nat → Int) :
    JobManager × Int :=
  match get_job jm id with
  | some j =>
    match j.child with
    | some _ =>
      ({ jm with
         jobs := jm.jobs.map (fun k => if k.id = id then { k with child := none } else k) },
       waitCode id)
    | none => (jm, 1)
  | none => (jm, 1)

/-- One session operation against the job table. -/
inductive JobOp where
  | add (command : Str)
  | removeFinished (exited : Nat → Bool)
  | fg (id : Nat) (waitCode : Nat → Int)
  | getJob (id : Nat)

/-- Apply one operation; `add` reports the id it assigned. -/
def jobStep (jm : JobManager) : JobOp → JobManager × Option Nat
  | .add command =>
    let r := add_job jm command
    (r.2, some r.1)
  | .removeFinished exited => (remove_finished jm exited, none)
  | .fg id waitCode => ((fg_builtin jm id waitCode).1, none)
  | .getJob _ => (jm, none)

/-- Run a session of operations, collecting the assigned ids in order. -/
def runJobOps (jm : JobManager) : List JobOp → JobManager × List Nat
  | [] => (jm, [])
  | op :: ops =>
    let r := jobStep jm op
    let rest := runJobOps r.1 ops
    (rest.1, (match r.2 with | some id => [id] | none => []) ++ rest.2)

/-! ## Executor (src/shell.rs, src/exec.rs)

Process spawning, builtin dispatch and the filesystem are abstracted into an
`ExecEnv` oracle.  `run argv` is the outcome of spawning `argv` and waiting
for it (covering `Command::output`, `Command::status` and spawn-then-wait
alike): either a spawn error (with its `ErrorKind::NotFound` flag and
display text) or the process result.  Evaluation also returns an event
trace recording, in order, every builtin dispatch, process spawn, and file
open/write/read the executor performs. -/

structure ProcOut where
  success : Bool
  code : Option Int
  stdout : List Nat
  deriving DecidableEq, Repr

structure SpawnErr where
  notFound : Bool
  msg : Str
  deriving DecidableEq, Repr

/-- `BuiltinResult` from src/builtins.rs. -/
inductive BuiltinRes where
  | handled (status : Int)
  | handledWithOutput (status : Int) (output : List Nat)
  | notHandled
  deriving DecidableEq, Repr

structure ExecEnv where
  builtin : List Str → Except ShellError BuiltinRes
  run : List Str → Except SpawnErr ProcOut
  stdinWrite : List Str → List Nat → Option Str

/-- Observable executor actions. -/
inductive Event where
  | builtinCall (argv : List Str)
  | spawn (argv : List Str)
  | fileOpen (path : Str)
  | fileWrite (path : Str)
  | fileRead (path : Str)
  deriving DecidableEq, Repr

/-- Whether an event touches a file. -/
def Event.isFileEvent : Event → Bool
  | .fileOpen _ => true
  | .fileWrite _ => true
  | .fileRead _ => true
  | _ => false

/-- The `command failed with status {}` message of `capture_output`
(`output.status.code().unwrap_or(-1)`). -/
def failMsg (code : Option Int) : Str :=
  str "command failed with status " ++ (toString (code.getD (-1))).toList

/-- `build_command_for_pipe` from src/shell.rs: only a `Simple` stage can be
re-spawned as the right-hand side of a buffered pipe; the buffered input
argument is unused in the source, and the resulting command is the argv. -/
def build_command_for_pipe : CommandPart → Except ShellError (List Str)
  | .simple argv _ =>
    if argv = [] then .error (.other (str "empty command in pipe"))
    else .ok argv
  | _ => .error (.other (str "complex commands in pipes not fully supported"))

/-- `capture_output` from src/shell.rs: materialize a stage's stdout.
Builtin results contribute their captured output with the *status
discarded*; an external stage is spawned with piped stdout and a
non-success exit aborts with a generic error carrying the status; a nested
pipe re-runs its right side via `build_command_for_pipe`; redirect nodes
are skipped entirely (only the inner command runs); a chain contributes
only its left side. -/
def capture_output (env : ExecEnv) : CommandPart → Except ShellError (List Nat) × List Event
  | .simple argv _ =>
    match argv with
    | [] => (.ok [], [])
    | program :: args =>
      match env.builtin (program :: args) with
      | .error e => (.error e, [.builtinCall (program :: args)])
      | .ok (.handled _) => (.ok [], [.builtinCall (program :: args)])
      | .ok (.handledWithOutput _ out) => (.ok out, [.builtinCall (program :: args)])
      | .ok .notHandled =>
        match env.run (program :: args) with
        | .error e =>
          (.error (.execFailed program e.msg),
           [.builtinCall (program :: args), .spawn (program :: args)])
        | .ok p =>
          if p.success then
            (.ok p.stdout, [.builtinCall (program :: args), .spawn (program :: args)])
          else
            (.error (.other (failMsg p.code)),
             [.builtinCall (program :: args), .spawn (program :: args)])
  | .pipe l r =>
    match capture_output env l with
    | (.error e, tr) => (.error e, tr)
    | (.ok _, tr) =>
      match build_command_for_pipe r with
      | .error e => (.error e, tr)
      | .ok argv =>
        match env.run argv with
        | .error e => (.error (.io e.msg), tr ++ [.spawn argv])
        | .ok p =>
          if p.success then (.ok p.stdout, tr ++ [.spawn argv])
          else (.error (.other (failMsg p.code)), tr ++ [.spawn argv])
  | .redirectOut cmd _ _ => capture_output env cmd
  | .redirectIn cmd _ => capture_output env cmd
  | .chain l _ _ => capture_output env l

/-- `execute_with_input` from src/shell.rs: run a node with a buffered stdin.
Builtins run with their status (output, if any, discarded); an external
command is spawned with piped stdin, the buffer is written to it, and its
own exit code (`unwrap_or(1)`) is returned; a nested pipe buffers its left
side and recurses; redirect nodes are skipped (the file is ignored); chains
short-circuit, feeding the same buffer to both sides. -/
def execute_with_input (env : ExecEnv) :
    CommandPart → List Nat → Except ShellError Int × List Event
  | .simple argv _, input =>
    match argv with
    | [] => (.ok 0, [])
    | program :: args =>
      match env.builtin (program :: args) with
      | .error e => (.error e, [.builtinCall (program :: args)])
      | .ok (.handled s) => (.ok s, [.builtinCall (program :: args)])
      | .ok (.handledWithOutput s _) => (.ok s, [.builtinCall (program :: args)])
      | .ok .notHandled =>
        match env.run (program :: args) with
        | .error e =>
          (.error (.execFailed program e.msg),
           [.builtinCall (program :: args), .spawn (program :: args)])
        | .ok p =>
          match env.stdinWrite (program :: args) input with
          | some m =>
            (.error (.other (str "pipe write error: " ++ m)),
             [.builtinCall (program :: args), .spawn (program :: args)])
          | none =>
            (.ok (p.code.getD 1),
             [.builtinCall (program :: args), .spawn (program :: args)])
  | .pipe l r, _ =>
    match capture_output env l with
    | (.error e, tr) => (.error e, tr)
    | (.ok out, tr) =>
      let r2 := execute_with_input env r out
      (r2.1, tr ++ r2.2)
  | .redirectOut cmd _ _, input => execute_with_input env cmd input
  | .redirectIn cmd _, input => execute_with_input env cmd input
  | .chain l r a, input =>
    match execute_with_input env l input with
    | (.error e, tr) => (.error e, tr)
    | (.ok ls, tr) =>
      let shouldRun := if a then ls = 0 else ls ≠ 0
      if shouldRun then
        let r2 := execute_with_input env r input
        (r2.1, tr ++ r2.2)
      else (.ok ls, tr)

/-- `execute_pipe` from src/shell.rs: buffer the left side's output, then
feed it to the right side; a failure while buffering propagates before the
right side is ever evaluated. -/
def execute_pipe (env : ExecEnv) (l r : CommandPart) :
    Except ShellError Int × List Event :=
  match capture_output env l with
  | (.error e, tr) => (.error e, tr)
  | (.ok out, tr) =>
    let r2 := execute_with_input env r out
    (r2.1, tr ++ r2.2)

/-- `run_external_command` from src/exec.rs: the `ls`/`cat`/`cargo`
allow-list selects the captured-and-reformatted path, but both paths map a
successful wait to `status.code().unwrap_or_default()` and a spawn error to
`CommandNotFound` (kind `NotFound`) or `ExecFailed` (any other kind). -/
def run_external_command (env : ExecEnv) (program : Str) (args : List Str) :
    Except ShellError Int :=
  let shouldFormat := program = str "ls" || program = str "cat" || program = str "cargo"
  if shouldFormat then
    match env.run (program :: args) with
    | .ok p => .ok (p.code.getD 0)
    | .error e =>
      .error (if e.notFound then .commandNotFound program else .execFailed program e.msg)
  else
    match env.run (program :: args) with
    | .ok p => .ok (p.code.getD 0)
    | .error e =>
      .error (if e.notFound then .commandNotFound program else .execFailed program e.msg)

/-- A word containing no `$` and no backtick: the expansion scan copies it
through unchanged (and with `HOME` unset, tilde expansion is the identity). -/
def plainWord (w : Str) : Prop := '$' ∉ w ∧ '`' ∉ w

instance (w : Str) : Decidable (plainWord w) := by
  unfold plainWord
  infer_instance

/-- Number of `add` operations in a job-table session. -/
def countAdds : List JobOp → Nat
  | [] => 0
  | .add _ :: ops => countAdds ops + 1
  | _ :: ops => countAdds ops

/-- Environment in which every spawn fails with a non-`NotFound` error. -/
def permDeniedEnv : ExecEnv :=
  { builtin := fun _ => .ok .notHandled
    run := fun _ => .error { notFound := false, msg := str "permission denied" }
    stdinWrite := fun _ _ => none }

/-- Environment in which every spawn fails with a `NotFound` error. -/
def notFoundEnv : ExecEnv :=
  { builtin := fun _ => .ok .notHandled
    run := fun _ => .error { notFound := true, msg := str "entity not found" }
    stdinWrite := fun _ _ => none }

/-- Environment in which the command `b1` is a builtin that reports exit
status 1 (with no captured output) and every external spawn succeeds with
status 0 and empty stdout. -/
def builtinFailEnv : ExecEnv :=
  { builtin := fun a => if a = [str "b1"] then .ok (.handled 1) else .ok .notHandled
    run := fun _ => .ok { success := true, code := some 0, stdout := [] }
    stdinWrite := fun _ _ => none }

/-- Environment in which every external command exits with status 3. -/
def exitThreeEnv : ExecEnv :=
  { builtin := fun _ => .ok .notHandled
    run := fun _ => .ok { success := false, code := some 3, stdout := [] }
    stdinWrite := fun _ _ => none }

/-- The external-dispatch arm of `execute_simple` (src/shell.rs, the
`BuiltinResult::NotHandled` case): a background command is spawned and
registered without waiting — a spawn failure there propagates as
`ExecFailed` via `?`, a success returns 0 immediately; a foreground command
goes through `run_external_command`, whose error is reported and mapped to
status 127 (`CommandNotFound`), 126 (`ExecFailed`) or 1 (anything else). -/
def executeSimpleExternal (env : ExecEnv) (program : Str) (args : List Str)
    (background : Bool) : Except ShellError Int :=
  if background then
    match env.run (program :: args) with
    | .error e => .error (.execFailed program e.msg)
    | .ok _ => .ok 0
  else
    match run_external_command env program args with
    | .ok code => .ok code
    | .error e =>
      .ok (match e with
        | .commandNotFound _ => 127
        | .execFailed _ _ => 126
        | _ => 1)

/-! ## Supporting lemmas -/

theorem exceptOkBind {α β ε : Type} (a : α) (f : α → Except ε β) :
    (Except.ok a >>= f) = f a := rfl

theorem exceptPure {α ε : Type} (a : α) : (pure a : Except ε α) = Except.ok a := rfl

theorem expand_tilde_trivial (w : Str) : expand_tilde trivialCtx w = w := rfl

theorem expandScan_plain (ctx : ExpCtx) :
    ∀ (fuel : Nat) (cs : List Char), cs.length < fuel → '$' ∉ cs → '`' ∉ cs →
      expandScan ctx fuel cs = .ok cs := by
  intro fuel
  induction fuel with
  | zero => intro cs h; omega
  | succ f ih =>
    intro cs hlen hd hb
    match cs with
    | [] => rfl
    | c :: rest =>
      have hcd : ¬c = '$' := fun h => hd (h ▸ List.mem_cons_self c rest)
      have hcb : ¬c = '`' := fun h => hb (h ▸ List.mem_cons_self c rest)
      have hrest : expandScan ctx f rest = .ok rest := by
        refine ih rest ?_ (fun h => hd (List.mem_cons_of_mem c h))
          (fun h => hb (List.mem_cons_of_mem c h))
        simpa using Nat.lt_of_succ_lt_succ hlen
      simp [expandScan, hcd, hcb, hrest, Except.map]

theorem expand_word_plain (w : Str) (h : plainWord w) :
    expand_word_with_subst trivialCtx w = .ok w := by
  have h1 : expand_tilde trivialCtx w = w := rfl
  unfold expand_word_with_subst
  rw [h1]
  exact expandScan_plain trivialCtx (w.length + 1) w (Nat.lt_succ_self _) h.1 h.2

theorem word_entries_trivial (e : Str) : word_argv_entries trivialCtx e = [e] := by
  simp [word_argv_entries, expand_glob, trivialCtx]

theorem word_entries_ne_nil (ctx : ExpCtx) (e : Str) :
    word_argv_entries ctx e ≠ [] := by
  unfold word_argv_entries
  by_cases h : expand_glob ctx e = [] <;> simp [h]

theorem simpleLoop_expanded (ctx : ExpCtx) {ws es : List Str}
    (h : List.Forall₂ (fun w e => expand_word_with_subst ctx w = .ok e) ws es) :
    simpleLoop ctx (ws.map Token.word)
      = .ok ((es.map (word_argv_entries ctx)).flatten, ws.length, false) := by
  induction h with
  | nil => rfl
  | cons hw hrest ih =>
    simp [simpleLoop, hw, ih]
    rfl

theorem simpleLoop_words_bg (ws : List Str) (rest : List Token)
    (hp : ∀ w ∈ ws, plainWord w) :
    simpleLoop trivialCtx (ws.map Token.word ++ Token.background :: rest)
      = .ok (ws, ws.length + 1, true) := by
  induction ws with
  | nil => rfl
  | cons w ws ih =>
    have hw := expand_word_plain w (hp w (List.mem_cons_self w ws))
    have ih2 := ih (fun x hx => hp x (List.mem_cons_of_mem w hx))
    simp [simpleLoop, hw, word_entries_trivial, ih2]
    rfl

theorem simpleLoop_words_stop (ws : List Str) (t : Token) (rest : List Token)
    (hp : ∀ w ∈ ws, plainWord w) (ht1 : ∀ s, t ≠ Token.word s)
    (ht2 : t ≠ Token.background) :
    simpleLoop trivialCtx (ws.map Token.word ++ t :: rest)
      = .ok (ws, ws.length, false) := by
  induction ws with
  | nil =>
    cases t with
    | word s => exact absurd rfl (ht1 s)
    | background => exact absurd rfl ht2
    | _ => rfl
  | cons w ws ih =>
    have hw := expand_word_plain w (hp w (List.mem_cons_self w ws))
    have ih2 := ih (fun x hx => hp x (List.mem_cons_of_mem w hx))
    simp [simpleLoop, hw, word_entries_trivial, ih2]
    rfl

theorem parse_simple_words_bg (ws : List Str) (rest : List Token)
    (hp : ∀ w ∈ ws, plainWord w) (hne : ws ≠ []) :
    parse_simple trivialCtx (ws.map Token.word ++ Token.background :: rest)
      = .ok (.simple ws true, ws.length + 1) := by
  have h1 : ws.map Token.word ++ Token.background :: rest ≠ [] := by
    simp
  simp [parse_simple, h1, simpleLoop_words_bg ws rest hp, exceptOkBind, exceptPure, hne]

/-! ## C1 -/

/-- C1 (counterexample): `parse_redirect` does not consume the whole redirect
sequence.  On the tokens of `cmd > a < b` it returns after the first `> a`,
having consumed 3 tokens, not the claimed `RedirectIn{RedirectOut{..}}` over
all 5; the full parse of the line likewise yields only the `RedirectOut`
node, silently dropping `< b`. -/
theorem c1_counterexample :
    parse_redirect trivialCtx
        [Token.word (str "cmd"), Token.redirectOut, Token.word (str "a"),
         Token.redirectIn, Token.word (str "b")]
      = .ok (.redirectOut (.simple [str "cmd"] false) (str "a") false, 3)
  ∧ parse_redirect trivialCtx
        [Token.word (str "cmd"), Token.redirectOut, Token.word (str "a"),
         Token.redirectIn, Token.word (str "b")]
      ≠ .ok (.redirectIn (.redirectOut (.simple [str "cmd"] false) (str "a") false)
              (str "b"), 5)
  ∧ parse_command_line trivialCtx 10 (str "cmd > a < b")
      = some (.ok (.redirectOut (.simple [str "cmd"] false) (str "a") false)) := by
  refine ⟨by decide, by decide, by decide⟩

/-- C1 (amended): `parse_redirect` parses one simple command and then
consumes at most ONE redirect operator (with its filename), returning
immediately; whatever tokens follow are left unconsumed.  For a plain word
`w` and any continuation, `w > f …` consumes exactly 3 tokens yielding
`RedirectOut{Simple{[w]}, f, append:false}`, `w >> f …` the same node with
`append:true`, and `w < f …` yields `RedirectIn{Simple{[w]}, f}`. -/
theorem c1_redirect_consumes_one (w f : Str) (rest : List Token)
    (hw : plainWord w) :
    parse_redirect trivialCtx (Token.word w :: Token.redirectOut :: Token.word f :: rest)
      = .ok (.redirectOut (.simple [w] false) f false, 3)
  ∧ parse_redirect trivialCtx (Token.word w :: Token.redirectAppend :: Token.word f :: rest)
      = .ok (.redirectOut (.simple [w] false) f true, 3)
  ∧ parse_redirect trivialCtx (Token.word w :: Token.redirectIn :: Token.word f :: rest)
      = .ok (.redirectIn (.simple [w] false) f, 3) := by
  have hp : ∀ x ∈ [w], plainWord x := by
    intro x hx
    simp at hx
    exact hx ▸ hw
  refine ⟨?_, ?_, ?_⟩
  · have hs := simpleLoop_words_stop [w] Token.redirectOut (Token.word f :: rest) hp
      (fun s h => Token.noConfusion h) (fun h => Token.noConfusion h)
    simp at hs
    have hps : parse_simple trivialCtx
        (Token.word w :: Token.redirectOut :: Token.word f :: rest)
        = .ok (.simple [w] false, 1) := by
      simp [parse_simple, hs, exceptOkBind, exceptPure]
    simp [parse_redirect, hps, exceptOkBind, exceptPure, expand_tilde_trivial]
  · have hs := simpleLoop_words_stop [w] Token.redirectAppend (Token.word f :: rest) hp
      (fun s h => Token.noConfusion h) (fun h => Token.noConfusion h)
    simp at hs
    have hps : parse_simple trivialCtx
        (Token.word w :: Token.redirectAppend :: Token.word f :: rest)
        = .ok (.simple [w] false, 1) := by
      simp [parse_simple, hs, exceptOkBind, exceptPure]
    simp [parse_redirect, hps, exceptOkBind, exceptPure, expand_tilde_trivial]
  · have hs := simpleLoop_words_stop [w] Token.redirectIn (Token.word f :: rest) hp
      (fun s h => Token.noConfusion h) (fun h => Token.noConfusion h)
    simp at hs
    have hps : parse_simple trivialCtx
        (Token.word w :: Token.redirectIn :: Token.word f :: rest)
        = .ok (.simple [w] false, 1) := by
      simp [parse_simple, hs, exceptOkBind, exceptPure]
    simp [parse_redirect, hps, exceptOkBind, exceptPure, expand_tilde_trivial]

theorem c1_witness :
    plainWord (str "cmd")
  ∧ parse_redirect trivialCtx
        [Token.word (str "cmd"), Token.redirectOut, Token.word (str "a"),
         Token.redirectIn, Token.word (str "b")]
      = .ok (.redirectOut (.simple [str "cmd"] false) (str "a") false, 3) :=
  ⟨by decide,
   (c1_redirect_consumes_one (str "cmd") (str "a")
     [Token.redirectIn, Token.word (str "b")] (by decide)).1⟩

/-! ## C3 -/

/-- C3 (code behavior at the claimed input): `parse_chain`'s loop stores the
slice-relative index returned by `parse_pipe` as the absolute position
(`i = next_i` where `parse_pipe` parsed `&tokens[i..]`), so on the tokens of
`a && b || c` the loop keeps landing back on the first `&&` and re-parsing
`b` forever: for every amount of fuel, parsing has still not terminated.
The claimed result `Chain{Chain{a,b,and:true}, c, and:false}` is therefore
never produced. -/
theorem c3_divergence (fuel : Nat) :
    parse_command_line trivialCtx fuel (str "a && b || c") = none := by
  have ht : tokenize (str "a && b || c")
      = [Token.word (str "a"), Token.andOp, Token.word (str "b"),
         Token.orOp, Token.word (str "c")] := by decide
  have hcycle : ∀ (f : Nat) (parts : List CommandPart) (ops : List Bool),
      chainLoop trivialCtx f
        [Token.word (str "a"), Token.andOp, Token.word (str "b"),
         Token.orOp, Token.word (str "c")] 2 parts ops = none := by
    intro f
    induction f with
    | zero => intro parts ops; rfl
    | succ f ih =>
      intro parts ops
      have hp : parse_pipe trivialCtx
          (List.drop 2
            [Token.word (str "a"), Token.andOp, Token.word (str "b"),
             Token.orOp, Token.word (str "c")])
          = .ok (.simple [str "b"] false, 1) := by decide
      simp [chainLoop, hp]
      exact ih _ _
  cases fuel with
  | zero => simp [parse_command_line, ht, parse_tokens, parse_chain, chainLoop]
  | succ f =>
    have hp0 : parse_pipe trivialCtx
        [Token.word (str "a"), Token.andOp, Token.word (str "b"),
         Token.orOp, Token.word (str "c")]
        = .ok (.simple [str "a"] false, 1) := by decide
    simp [parse_command_line, ht, parse_tokens, parse_chain, chainLoop, hp0, hcycle]

/-! ## C4 -/

/-- C4 (counterexample): the tokens left behind by `parse_simple` after a
consumed `&` are NOT always detached — when the next token is an operator,
the enclosing loops attach what follows: `a & | b` parses to a `Pipe` whose
left side is the backgrounded command, and `a & && b` parses to a `Chain`.
This contradicts the claim that the remaining tokens are never attached to
further pipes or chains. -/
theorem c4_counterexample :
    parse_command_line trivialCtx 10 (str "a & | b")
      = some (.ok (.pipe (.simple [str "a"] true) (.simple [str "b"] false)))
  ∧ parse_command_line trivialCtx 10 (str "a & && b")
      = some (.ok (.chain (.simple [str "a"] true) (.simple [str "b"] false) true)) :=
  ⟨by decide, by decide⟩

/-- C4 (amended): when `parse_simple` meets a `Background` token it consumes
it and stops at once: for plain words `ws` followed by `&` and ANY remaining
tokens, it returns `Simple{ws, background:true}` having consumed exactly
`ws.length + 1` tokens, leaving the rest unconsumed *by that call* (the
enclosing pipe/chain loops may still consume an operator that follows).
In particular `sleep 5 &` parses to `Simple{[sleep,5], background:true}`. -/
theorem c4_background_stops_simple (ws : List Str) (rest : List Token)
    (hp : ∀ w ∈ ws, plainWord w) (hne : ws ≠ []) :
    parse_simple trivialCtx (ws.map Token.word ++ Token.background :: rest)
      = .ok (.simple ws true, ws.length + 1)
  ∧ parse_command_line trivialCtx 10 (str "sleep 5 &")
      = some (.ok (.simple [str "sleep", str "5"] true)) :=
  ⟨parse_simple_words_bg ws rest hp hne, by decide⟩

theorem c4_witness :
    ((∀ w ∈ [str "sleep", str "5"], plainWord w) ∧ ([str "sleep", str "5"] : List Str) ≠ [])
  ∧ parse_simple trivialCtx
      [Token.word (str "sleep"), Token.word (str "5"), Token.background]
      = .ok (.simple [str "sleep", str "5"] true, 3) := by
  refine ⟨⟨by decide, by decide⟩, ?_⟩
  have h := (c4_background_stops_simple [str "sleep", str "5"] [] (by decide) (by decide)).1
  simpa using h

/-! ## C5 -/

/-- C5: the per-word argv contribution in `parse_simple` is never empty.
For any oracle context and any nonempty word list whose expansions succeed,
the parsed argv is the concatenation of the per-word contributions
`word_argv_entries`; each contribution is nonempty, a word without glob
metacharacters contributes exactly its expanded literal, and a word with
metacharacters that matches nothing on the filesystem also contributes
exactly its expanded literal. -/
theorem c5_glob_never_deletes (ctx : ExpCtx) (ws es : List Str)
    (h : List.Forall₂ (fun w e => expand_word_with_subst ctx w = .ok e) ws es)
    (hne : ws ≠ []) :
    parse_simple ctx (ws.map Token.word)
      = .ok (.simple ((es.map (word_argv_entries ctx)).flatten) false, ws.length)
  ∧ (∀ e ∈ es, word_argv_entries ctx e ≠ [])
  ∧ (∀ e ∈ es, hasGlobMeta e = false → word_argv_entries ctx e = [e])
  ∧ (∀ e ∈ es, hasGlobMeta e = true → ctx.glob e = [] →
      word_argv_entries ctx e = [e]) := by
  refine ⟨?_, fun e _ => word_entries_ne_nil ctx e, ?_, ?_⟩
  · have hmapne : ws.map Token.word ≠ [] := by
      cases ws with
      | nil => exact absurd rfl hne
      | cons w ws => simp
    have hflat : ((es.map (word_argv_entries ctx)).flatten) ≠ [] := by
      cases h with
      | nil => exact absurd rfl hne
      | cons hw hrest =>
        simp only [List.map_cons, List.flatten_cons]
        intro hcontr
        rcases List.append_eq_nil.mp hcontr with ⟨h1, _⟩
        exact word_entries_ne_nil ctx _ h1
    simp [parse_simple, hmapne, simpleLoop_expanded ctx h, exceptOkBind, exceptPure, hflat]
  · intro e _ hm
    simp [word_argv_entries, expand_glob, hm]
  · intro e _ hm hg
    simp [word_argv_entries, expand_glob, hm, hg]

theorem c5_witness :
    expand_word_with_subst trivialCtx (str "*.nonexistent123")
      = .ok (str "*.nonexistent123")
  ∧ hasGlobMeta (str "*.nonexistent123") = true
  ∧ trivialCtx.glob (str "*.nonexistent123") = []
  ∧ parse_simple trivialCtx [Token.word (str "*.nonexistent123")]
      = .ok (.simple [str "*.nonexistent123"] false, 1) := by
  refine ⟨by decide, by decide, rfl, ?_⟩
  have h := (c5_glob_never_deletes trivialCtx
    [str "*.nonexistent123"] [str "*.nonexistent123"]
    (List.Forall₂.cons (by decide) List.Forall₂.nil) (by decide)).1
  simpa [word_entries_trivial] using h

/-! ## C6 -/

/-- C6 (counterexample): the 127/126 mapping does NOT apply to every simple
command dispatched to an external process — for a background dispatch, a
spawn failure propagates as an `ExecFailed` error instead of producing
status 126 (and a not-found failure does not produce 127 either). -/
theorem c6_counterexample :
    executeSimpleExternal permDeniedEnv (str "prog") [] true
      = .error (.execFailed (str "prog") (str "permission denied"))
  ∧ executeSimpleExternal permDeniedEnv (str "prog") [] true ≠ .ok 126
  ∧ executeSimpleExternal notFoundEnv (str "prog") [] true ≠ .ok 127 :=
  ⟨by decide, by decide, by decide⟩

/-- C6 (amended): for a FOREGROUND simple command dispatched to an external
process, a spawn failure yields shell status 127 when the binary was not
found and 126 for any other spawn failure, and a successful spawn yields
the child's own exit code (`unwrap_or_default`, i.e. 0 when the child has no
code); a BACKGROUND dispatch instead propagates a spawn failure as an
`ExecFailed` error (no 126/127 status) and returns 0 immediately on
success. -/
theorem c6_spawn_status_mapping (env : ExecEnv) (program : Str) (args : List Str) :
    (∀ e, env.run (program :: args) = .error e → e.notFound = true →
        executeSimpleExternal env program args false = .ok 127)
  ∧ (∀ e, env.run (program :: args) = .error e → e.notFound = false →
        executeSimpleExternal env program args false = .ok 126)
  ∧ (∀ p, env.run (program :: args) = .ok p →
        executeSimpleExternal env program args false = .ok (p.code.getD 0))
  ∧ (∀ e, env.run (program :: args) = .error e →
        executeSimpleExternal env program args true
          = .error (.execFailed program e.msg))
  ∧ (∀ p, env.run (program :: args) = .ok p →
        executeSimpleExternal env program args true = .ok 0) := by
  refine ⟨?_, ?_, ?_, ?_, ?_⟩
  · intro e he hnf
    simp [executeSimpleExternal, run_external_command, he, ite_self, hnf]
  · intro e he hnf
    simp [executeSimpleExternal, run_external_command, he, ite_self, hnf]
  · intro p hp
    simp [executeSimpleExternal, run_external_command, hp, ite_self]
  · intro e he
    simp [executeSimpleExternal, he]
  · intro p hp
    simp [executeSimpleExternal, hp]

theorem c6_witness :
    executeSimpleExternal notFoundEnv (str "nosuch") [] false = .ok 127
  ∧ executeSimpleExternal permDeniedEnv (str "prog") [] false = .ok 126
  ∧ executeSimpleExternal builtinFailEnv (str "ok") [] false = .ok 0 := by
  refine ⟨?_, ?_, ?_⟩
  · exact (c6_spawn_status_mapping notFoundEnv (str "nosuch") []).1 _ rfl rfl
  · exact (c6_spawn_status_mapping permDeniedEnv (str "prog") []).2.1 _ rfl rfl
  · have h := (c6_spawn_status_mapping builtinFailEnv (str "ok") []).2.2.1
      { success := true, code := some 0, stdout := [] } rfl
    simpa using h

/-! ## C2 -/

/-- C2 (counterexample): a buffered stage handled as a builtin does NOT
abort the pipeline when it reports a non-zero status: with `b1` a builtin
whose status is 1, `capture_output` discards the status, the pipeline
continues (the right stage `x` is dispatched and spawned), and the whole
pipeline reports success. -/
theorem c2_counterexample :
    builtinFailEnv.builtin [str "b1"] = .ok (.handled 1)
  ∧ execute_pipe builtinFailEnv (.simple [str "b1"] false) (.simple [str "x"] false)
      = (.ok 0, [.builtinCall [str "b1"], .builtinCall [str "x"], .spawn [str "x"]])
  ∧ Event.spawn [str "x"]
      ∈ (execute_pipe builtinFailEnv (.simple [str "b1"] false)
          (.simple [str "x"] false)).2 :=
  ⟨by decide, by decide, by decide⟩

/-- C2 (amended): for an EXTERNAL buffered stage (builtin dispatch returns
`NotHandled`), a non-success exit status does abort the whole pipeline:
`execute_pipe` returns the generic error carrying the failed status code
(`command failed with status …`), and the event trace contains only the
left stage's dispatch and spawn — the right stage is never invoked,
whatever it is. -/
theorem c2_external_failure_aborts (env : ExecEnv) (program : Str)
    (args : List Str) (bg : Bool) (r : CommandPart) (p : ProcOut)
    (hb : env.builtin (program :: args) = .ok .notHandled)
    (hr : env.run (program :: args) = .ok p)
    (hs : p.success = false) :
    execute_pipe env (.simple (program :: args) bg) r
      = (.error (.other (failMsg p.code)),
         [.builtinCall (program :: args), .spawn (program :: args)]) := by
  simp [execute_pipe, capture_output, hb, hr, hs]

theorem c2_witness :
    execute_pipe exitThreeEnv (.simple [str "f"] false) (.simple [str "g"] false)
      = (.error (.other (str "command failed with status 3")),
         [.builtinCall [str "f"], .spawn [str "f"]]) := by
  rw [c2_external_failure_aborts exitThreeEnv (str "f") [] false
    (.simple [str "g"] false) { success := false, code := some 3, stdout := [] }
    rfl rfl rfl]
  decide

/-! ## C10 -/

theorem capture_output_no_file_events (env : ExecEnv) :
    ∀ c : CommandPart, ∀ x ∈ (capture_output env c).2, x.isFileEvent = false := by
  intro c
  induction c with
  | simple argv bg =>
    cases argv with
    | nil => intro x hx; cases hx
    | cons program args =>
      simp only [capture_output]
      cases hb : env.builtin (program :: args) with
      | error e => simp [Event.isFileEvent]
      | ok b =>
        cases b with
        | handled s => simp [Event.isFileEvent]
        | handledWithOutput s out => simp [Event.isFileEvent]
        | notHandled =>
          cases hr : env.run (program :: args) with
          | error e => simp [Event.isFileEvent]
          | ok p => by_cases hs : p.success <;> simp [hs, Event.isFileEvent]
  | pipe l r ihl ihr =>
    simp only [capture_output]
    rcases hc : capture_output env l with ⟨res, tr⟩
    rw [hc] at ihl
    simp only at ihl
    cases res with
    | error e => exact ihl
    | ok out =>
      dsimp only
      cases hbc : build_command_for_pipe r with
      | error e => exact ihl
      | ok argv =>
        dsimp only
        have happ : ∀ x ∈ tr ++ [Event.spawn argv], x.isFileEvent = false := by
          intro x hx
          rcases List.mem_append.mp hx with h | h
          · exact ihl x h
          · rw [List.mem_singleton.mp h]; rfl
        cases hr : env.run argv with
        | error e => exact happ
        | ok p =>
          dsimp only
          by_cases hs : p.success <;> simp only [hs, if_true, if_false] <;>
            exact happ
  | redirectOut cmd f a ih => simpa [capture_output] using ih
  | redirectIn cmd f ih => simpa [capture_output] using ih
  | chain l r a ihl ihr => simpa [capture_output] using ihl

theorem execute_with_input_no_file_events (env : ExecEnv) :
    ∀ (c : CommandPart) (input : List Nat),
      ∀ x ∈ (execute_with_input env c input).2, x.isFileEvent = false := by
  intro c
  induction c with
  | simple argv bg =>
    intro input
    cases argv with
    | nil => intro x hx; cases hx
    | cons program args =>
      simp only [execute_with_input]
      cases hb : env.builtin (program :: args) with
      | error e => simp [Event.isFileEvent]
      | ok b =>
        cases b with
        | handled s => simp [Event.isFileEvent]
        | handledWithOutput s out => simp [Event.isFileEvent]
        | notHandled =>
          cases hr : env.run (program :: args) with
          | error e => simp [Event.isFileEvent]
          | ok p =>
            cases hw : env.stdinWrite (program :: args) input with
            | none => simp [Event.isFileEvent]
            | some m => simp [Event.isFileEvent]
  | pipe l r ihl ihr =>
    intro input
    simp only [execute_with_input]
    have hl := capture_output_no_file_events env l
    rcases hc : capture_output env l with ⟨res, tr⟩
    rw [hc] at hl
    simp only at hl
    cases res with
    | error e => exact hl
    | ok out =>
      intro x hx
      rcases List.mem_append.mp hx with h | h
      · exact hl x h
      · exact ihr out x h
  | redirectOut cmd f a ih =>
    intro input
    simpa [execute_with_input] using ih input
  | redirectIn cmd f ih =>
    intro input
    simpa [execute_with_input] using ih input
  | chain l r a ihl ihr =>
    intro input
    simp only [execute_with_input]
    have h1 := ihl input
    rcases hel : execute_with_input env l input with ⟨res, tr⟩
    rw [hel] at h1
    simp only at h1
    cases res with
    | error e => exact h1
    | ok ls =>
      by_cases hsr : (if a then ls = 0 else ls ≠ 0)
      · simp only [hsr, if_pos]
        intro x hx
        rcases List.mem_append.mp hx with h | h
        · exact h1 x h
        · exact ihr input x h
      · simp only [hsr, if_neg]
        exact h1

theorem all_not_file_of_forall (tr : List Event)
    (h : ∀ x ∈ tr, x.isFileEvent = false) :
    (tr.all (fun e => !e.isFileEvent)) = true := by
  rw [List.all_eq_true]
  intro x hx
  simp [h x hx]

/-- C10: when a `RedirectOut`/`RedirectIn` node is evaluated as a buffered
pipeline stage, the redirection is ignored entirely: `capture_output` on a
redirect node is exactly `capture_output` of the inner command; moreover the
event trace of `capture_output` never contains any file open/write/read,
and neither does the full evaluation of a pipeline such as `a > f | b`
(`execute_pipe` with a redirect node as its buffered left stage) — the
target file is never opened, written, or read in that context. -/
theorem c10_redirect_ignored_in_capture (env : ExecEnv) (cmd : CommandPart)
    (f : Str) (a : Bool) (l r : CommandPart) :
    capture_output env (.redirectOut cmd f a) = capture_output env cmd
  ∧ capture_output env (.redirectIn cmd f) = capture_output env cmd
  ∧ ((capture_output env cmd).2.all (fun e => !e.isFileEvent)) = true
  ∧ ((execute_pipe env (.redirectOut l f a) r).2.all
      (fun e => !e.isFileEvent)) = true := by
  refine ⟨rfl, rfl,
    all_not_file_of_forall _ (capture_output_no_file_events env cmd), ?_⟩
  refine all_not_file_of_forall _ ?_
  simp only [execute_pipe]
  have h1 := capture_output_no_file_events env (.redirectOut l f a)
  rcases hc : capture_output env (.redirectOut l f a) with ⟨res, tr⟩
  rw [hc] at h1
  simp only at h1
  cases res with
  | error e => exact h1
  | ok out =>
    intro x hx
    rcases List.mem_append.mp hx with h | h
    · exact h1 x h
    · exact execute_with_input_no_file_events env r out x h

/-! ## C7 -/

theorem remove_finished_next_id (jm : JobManager) (exited : Nat → Bool) :
    (remove_finished jm exited).next_id = jm.next_id := rfl

theorem fg_builtin_next_id (jm : JobManager) (id : Nat) (w : Nat → Int) :
    (fg_builtin jm id w).1.next_id = jm.next_id := by
  unfold fg_builtin
  cases hg : get_job jm id with
  | none => rfl
  | some j =>
    dsimp only
    cases hc : j.child with
    | none => rfl
    | some u => rfl

theorem runJobOps_ids (ops : List JobOp) : ∀ jm : JobManager,
    (runJobOps jm ops).2 = List.range' jm.next_id (countAdds ops) := by
  induction ops with
  | nil => intro jm; rfl
  | cons op ops ih =>
    intro jm
    cases op with
    | add command =>
      simp only [runJobOps, jobStep, add_job, countAdds, ih]
      rfl
    | removeFinished exited =>
      simp only [runJobOps, jobStep, countAdds, ih, remove_finished_next_id]
      rfl
    | fg id w =>
      simp only [runJobOps, jobStep, countAdds, ih, fg_builtin_next_id]
      rfl
    | getJob id =>
      simp only [runJobOps, jobStep, countAdds, ih]
      rfl

/-- C7: over every session of `add_job` / `remove_finished` / `get_job` /
`fg` operations on one `JobManager` starting from `new`, the assigned ids
are exactly `1, 2, …, k` (one per `add_job`, starting at 1), hence every
newly assigned id is strictly greater than all previously assigned ids and
no id is ever reused — even after `remove_finished` evicts jobs or `fg`
takes a handle. -/
theorem c7_job_ids_strictly_increasing (ops : List JobOp) :
    (runJobOps JobManager.new ops).2 = List.range' 1 (countAdds ops)
  ∧ List.Pairwise (· < ·) (runJobOps JobManager.new ops).2 := by
  have h := runJobOps_ids ops JobManager.new
  refine ⟨h, ?_⟩
  rw [h]
  exact List.pairwise_lt_range' 1 (countAdds ops)

/-! ## C9 -/

theorem incomplete_flags_agree :
    ∀ (fuel : Nat) (cs : List Char), cs.length < fuel →
      ∀ (s d : Bool) (cur : Str), '\\' ∉ cs →
      incompleteScanFlags cs false s d = (tokenizeAux fuel cs s d cur).2 := by
  intro fuel
  induction fuel with
  | zero => intro cs hlen; omega
  | succ f ih =>
    intro cs hlen s d cur hbs
    match cs with
    | [] => rfl
    | c :: rest =>
      have hcb : ¬ c = '\\' := fun h => hbs (h ▸ List.mem_cons_self c rest)
      have ht : '\\' ∉ rest := fun hm => hbs (List.mem_cons_of_mem _ hm)
      have hlr : rest.length < f := by
        simp only [List.length_cons] at hlen
        omega
      by_cases h1 : (c = '\'' ∧ d = false)
      · simp [incompleteScanFlags, tokenizeAux, hcb, h1.1, h1.2,
          ih rest hlr (!s) false cur ht]
      · by_cases h2 : (c = '"' ∧ s = false)
        · have hq : ¬ (c = '\'' ∧ d = false) := h1
          simp [incompleteScanFlags, tokenizeAux, hcb, hq, h2.1, h2.2,
            ih rest hlr false (!d) cur ht]
        · have hdet : incompleteScanFlags (c :: rest) false s d
              = incompleteScanFlags rest false s d := by
            simp [incompleteScanFlags, hcb, h1, h2]
          rw [hdet]
          by_cases h3 : ((c = ' ' ∨ c = '\t') ∧ s = false ∧ d = false)
          · obtain ⟨hor, hs3, hd3⟩ := h3
            subst hs3 hd3
            rcases hor with hc3 | hc3 <;> subst hc3 <;>
              simp [tokenizeAux, ih rest hlr false false [] ht]
          · by_cases h4 : (c = '|' ∧ s = false ∧ d = false)
            · by_cases h5 : rest.head? = some '|'
              · cases rest with
                | nil => simp at h5
                | cons c2 rest2 =>
                  simp only [List.head?_cons, Option.some.injEq] at h5
                  subst h5
                  obtain ⟨hc4, hs4, hd4⟩ := h4
                  subst hc4 hs4 hd4
                  have hlr2 : rest2.length < f := by
                    simp only [List.length_cons] at hlr
                    omega
                  have ht2 : '\\' ∉ rest2 := fun hm =>
                    ht (List.mem_cons_of_mem _ hm)
                  simp [incompleteScanFlags, tokenizeAux,
                    ih rest2 hlr2 false false [] ht2]
              · obtain ⟨hc4, hs4, hd4⟩ := h4
                subst hc4 hs4 hd4
                simp [tokenizeAux, h3, h5, ih rest hlr false false [] ht]
            · by_cases h6 : (c = '&' ∧ s = false ∧ d = false)
              · by_cases h5 : rest.head? = some '&'
                · cases rest with
                  | nil => simp at h5
                  | cons c2 rest2 =>
                    simp only [List.head?_cons, Option.some.injEq] at h5
                    subst h5
                    obtain ⟨hc4, hs4, hd4⟩ := h6
                    subst hc4 hs4 hd4
                    have hlr2 : rest2.length < f := by
                      simp only [List.length_cons] at hlr
                      omega
                    have ht2 : '\\' ∉ rest2 := fun hm =>
                      ht (List.mem_cons_of_mem _ hm)
                    simp [incompleteScanFlags, tokenizeAux,
                      ih rest2 hlr2 false false [] ht2]
                · obtain ⟨hc4, hs4, hd4⟩ := h6
                  subst hc4 hs4 hd4
                  simp [tokenizeAux, h3, h4, h5, ih rest hlr false false [] ht]
              · by_cases h7 : (c = '>' ∧ s = false ∧ d = false)
                · by_cases h5 : rest.head? = some '>'
                  · cases rest with
                    | nil => simp at h5
                    | cons c2 rest2 =>
                      simp only [List.head?_cons, Option.some.injEq] at h5
                      subst h5
                      obtain ⟨hc4, hs4, hd4⟩ := h7
                      subst hc4 hs4 hd4
                      have hlr2 : rest2.length < f := by
                        simp only [List.length_cons] at hlr
                        omega
                      have ht2 : '\\' ∉ rest2 := fun hm =>
                        ht (List.mem_cons_of_mem _ hm)
                      simp [incompleteScanFlags, tokenizeAux,
                        ih rest2 hlr2 false false [] ht2]
                  · obtain ⟨hc4, hs4, hd4⟩ := h7
                    subst hc4 hs4 hd4
                    simp [tokenizeAux, h3, h4, h6, h5,
                      ih rest hlr false false [] ht]
                · by_cases h8 : (c = '<' ∧ s = false ∧ d = false)
                  · obtain ⟨hc4, hs4, hd4⟩ := h8
                    subst hc4 hs4 hd4
                    simp [tokenizeAux, h3, h4, h6, h7,
                      ih rest hlr false false [] ht]
                  · simp [tokenizeAux, h1, h2, h3, h4, h6, h7, h8,
                      ih rest hlr s d (cur ++ [c]) ht]

/-- C9 (counterexample): the detector and the tokenizer disagree on
backslash-escaped quotes.  On the two-character line `\\'` the detector
treats the quote as escaped and reports the line complete, while the
tokenizer (which has no backslash handling) finishes the scan with its
single-quote flag still set — so "reports an unterminated quote iff the
tokenizer's flag is set" fails at this line. -/
theorem c9_counterexample :
    is_incomplete_command (str "\\'") = false
  ∧ tokenizeFlags (str "\\'") = (true, false)
  ∧ ¬(is_incomplete_command (str "\\'") = true
      ↔ ((tokenizeFlags (str "\\'")).1 || (tokenizeFlags (str "\\'")).2) = true) :=
  ⟨by decide, by decide, by decide⟩

/-- C9 (amended): on every line containing no backslash, the detector's
final quote flags coincide with the tokenizer's final quote flags, and
`is_incomplete_command` reports exactly "trailing pipe, or a tokenizer
quote flag still set" (the trailing-backslash condition cannot fire).
With backslashes the two scanners can disagree (see the counterexample). -/
theorem c9_detector_matches_tokenizer (cs : List Char) (hbs : '\\' ∉ cs) :
    incompleteScanFlags cs false false false = tokenizeFlags cs
  ∧ is_incomplete_command cs
      = (endsWithChar (trimEnd cs) '|'
          || (tokenizeFlags cs).1 || (tokenizeFlags cs).2) := by
  have h1 : incompleteScanFlags cs false false false = tokenizeFlags cs :=
    incomplete_flags_agree (cs.length + 1) cs (Nat.lt_succ_self _) false false [] hbs
  refine ⟨h1, ?_⟩
  have hsub : (trimEnd cs).Sublist cs := by
    unfold trimEnd
    have h2 : (cs.reverse.dropWhile Char.isWhitespace).Sublist cs.reverse :=
      (List.dropWhile_suffix _).sublist
    have h3 := List.reverse_sublist.mpr h2
    simpa using h3
  have hnb : endsWithChar (trimEnd cs) '\\' = false := by
    by_cases hq : (trimEnd cs).getLast? = some '\\'
    · exact absurd (hsub.subset (List.mem_of_mem_getLast? hq)) hbs
    · simp [endsWithChar, hq]
  cases hpipe : endsWithChar (trimEnd cs) '|' <;>
    simp [is_incomplete_command, hnb, hpipe, h1]

theorem c9_witness :
    ('\\' ∉ str "echo \"unterminated"
      ∧ incompleteScanFlags (str "echo \"unterminated") false false false
          = tokenizeFlags (str "echo \"unterminated"))
  ∧ is_incomplete_command (str "echo \"unterminated") = true
  ∧ is_incomplete_command (str "echo \"unterminated\"") = false := by
  refine ⟨⟨by decide, ?_⟩, by decide, by decide⟩
  exact (c9_detector_matches_tokenizer (str "echo \"unterminated") (by decide)).1



/-! ## C8: alias persistence round trip (src/aliases.rs)

String lemmas about `replaceQuote`, `scanUntil`, `trim`, the written line
shape, `splitOnNl`/`linesOf` against `joinLines`, the fold of `loadLine`
against `lookupName`, and the sort permutation, leading to the corrected
round-trip theorem and the single-quote counterexample. -/

theorem replaceQuote_of_not_mem (v : Str) (h : '\'' ∉ v) : replaceQuote v = v := by
  induction v with
  | nil => rfl
  | cons c rest ih =>
    have hc : ¬ c = '\'' := fun he => h (he ▸ List.mem_cons_self c rest)
    have ht : '\'' ∉ rest := fun hm => h (List.mem_cons_of_mem _ hm)
    simp [replaceQuote, hc, ih ht]

theorem mem_replaceQuote (v : Str) (c : Char) (h : c ∈ replaceQuote v) :
    c ∈ v ∨ c = '\'' ∨ c = '\\' := by
  induction v with
  | nil => cases h
  | cons x rest ih =>
    by_cases hx : x = '\''
    · rw [replaceQuote, if_pos hx] at h
      simp only [List.mem_cons] at h
      rcases h with h | h | h | h | h
      · exact Or.inr (Or.inl h)
      · exact Or.inr (Or.inr h)
      · exact Or.inr (Or.inl h)
      · exact Or.inr (Or.inl h)
      · rcases ih h with h2 | h2
        · exact Or.inl (List.mem_cons_of_mem _ h2)
        · exact Or.inr h2
    · rw [replaceQuote, if_neg hx] at h
      simp only [List.mem_cons] at h
      rcases h with h | h
      · exact Or.inl (h ▸ List.mem_cons_self x rest)
      · rcases ih h with h2 | h2
        · exact Or.inl (List.mem_cons_of_mem _ h2)
        · exact Or.inr h2

theorem takeWhile_neq_append (n r : Str) (h : '=' ∉ n) :
    (n ++ '=' :: r).takeWhile (· ≠ '=') = n
  ∧ (n ++ '=' :: r).dropWhile (· ≠ '=') = '=' :: r := by
  induction n with
  | nil => simp [List.takeWhile, List.dropWhile]
  | cons c rest ih =>
    have hc : c ≠ '=' := fun he => h (he ▸ List.mem_cons_self c rest)
    have ht : '=' ∉ rest := fun hm => h (List.mem_cons_of_mem _ hm)
    obtain ⟨ih1, ih2⟩ := ih ht
    have hpc : (decide (c ≠ '=')) = true := by simp [hc]
    constructor
    · rw [List.cons_append, List.takeWhile_cons, if_pos hpc, ih1]
    · rw [List.cons_append, List.dropWhile_cons, if_pos hpc, ih2]

theorem scanUntil_append (q : Char) (v rest : Str) (h : q ∉ v) :
    scanUntil q (v ++ q :: rest) = (v, rest) := by
  induction v with
  | nil => simp [scanUntil]
  | cons c t ih =>
    have hc : ¬ c = q := fun he => h (he ▸ List.mem_cons_self c t)
    have ht : q ∉ t := fun hm => h (List.mem_cons_of_mem _ hm)
    simp [scanUntil, hc, ih ht]

theorem trimStart_sublist (l : Str) : (trimStart l).Sublist l :=
  (List.dropWhile_suffix _).sublist

theorem trimEnd_sublist (l : Str) : (trimEnd l).Sublist l := by
  unfold trimEnd
  have h2 : (l.reverse.dropWhile Char.isWhitespace).Sublist l.reverse :=
    (List.dropWhile_suffix _).sublist
  have h3 := List.reverse_sublist.mpr h2
  simpa using h3

theorem trim_stable_parts (v : Str) (h : trim v = v) :
    trimStart v = v ∧ trimEnd v = v := by
  have h1 : (trimEnd (trimStart v)).Sublist (trimStart v) := trimEnd_sublist _
  have h2 : (trimStart v).Sublist v := trimStart_sublist v
  have hlen1 := h1.length_le
  have hlen2 := h2.length_le
  have hv : trimEnd (trimStart v) = v := h
  have hlv : (trimEnd (trimStart v)).length = v.length := by rw [hv]
  have hstart : trimStart v = v := h2.eq_of_length (by omega)
  refine ⟨hstart, ?_⟩
  rw [hstart] at hv
  exact hv

theorem trimStart_cons (c : Char) (l : Str) (h : c.isWhitespace = false) :
    trimStart (c :: l) = c :: l := by
  simp [trimStart, List.dropWhile_cons, h]

theorem trimEnd_concat (l : Str) (c : Char) (h : c.isWhitespace = false) :
    trimEnd (l ++ [c]) = l ++ [c] := by
  unfold trimEnd
  simp [List.dropWhile_cons, h]

theorem trim_of_ends (l : Str) (c d : Char) (hhead : l.head? = some c)
    (hc : c.isWhitespace = false) (hlast : l.getLast? = some d)
    (hd : d.isWhitespace = false) : trim l = l := by
  cases l with
  | nil => cases hhead
  | cons x t =>
    simp only [List.head?_cons, Option.some.injEq] at hhead
    subst hhead
    unfold trim
    rw [trimStart_cons _ _ hc]
    obtain ⟨init, hinit⟩ := (List.getLast?_eq_some_iff).mp hlast
    rw [hinit]
    exact trimEnd_concat _ _ hd

theorem getLast_not_ws_of_trim_stable (v : Str) (hne : v ≠ []) (h : trim v = v)
    (x : Char) (hx : v.getLast? = some x) : x.isWhitespace = false := by
  by_contra hws
  simp only [Bool.not_eq_false] at hws
  obtain ⟨init, hinit⟩ := (List.getLast?_eq_some_iff).mp hx
  have hEnd : trimEnd v = v := (trim_stable_parts v h).2
  have : trimEnd v = trimEnd init := by
    rw [hinit]
    unfold trimEnd
    simp [List.dropWhile_cons, hws]
  rw [hEnd] at this
  have hlen := (trimEnd_sublist init).length_le
  have : v.length = (trimEnd init).length := by rw [this]
  rw [hinit] at this
  simp at this
  omega
theorem str_alias_chars : str "alias " = ['a', 'l', 'i', 'a', 's', ' '] := rfl

theorem stripPrefix_append (p x : Str) : stripPrefix p (p ++ x) = some x := by
  simp [stripPrefix, List.take_left, List.drop_left]

theorem contains_false_not_mem (l : Str) (c : Char) (h : l.contains c = false) :
    c ∉ l := by
  induction l with
  | nil => simp
  | cons x t ih =>
    simp only [List.contains_cons, Bool.or_eq_false_iff, beq_eq_false_iff_ne] at h
    simp only [List.mem_cons, not_or]
    exact ⟨h.1, ih (by simpa [List.contains] using h.2)⟩

theorem parse_alias_line_roundtrip (n v : Str) (hn : goodAliasName n)
    (hv : goodAliasValue v) :
    parse_alias_line (n ++ '=' :: escapeAliasValue v) = some (n, v) := by
  obtain ⟨hne, heq, _hnl, htrim⟩ := hn
  obtain ⟨hq, _hvnl, hvtrim⟩ := hv
  obtain ⟨ht1, ht2⟩ := takeWhile_neq_append n (escapeAliasValue v) heq
  unfold parse_alias_line
  simp only [ht1, ht2, List.tail_cons]
  rw [if_neg hne, htrim]
  by_cases hesc : (v.contains ' ' || v.contains '\'' || v.contains '"') = true
  · have hrq : replaceQuote v = v := replaceQuote_of_not_mem v hq
    rw [escapeAliasValue, if_pos hesc, hrq]
    have hscan : scanUntil '\'' (v ++ ['\'']) = (v, []) :=
      scanUntil_append '\'' v [] hq
    show (if ('\'' : Char) = '\'' ∨ ('\'' : Char) = '"'
          then some (n, trim (scanUntil '\'' (v ++ ['\''])).1)
          else some (n, trim ('\'' :: v ++ ['\'']))) = some (n, v)
    rw [if_pos (Or.inl rfl : ('\'' : Char) = '\'' ∨ ('\'' : Char) = '"')]
    simp [hscan, hvtrim]
  · rw [escapeAliasValue, if_neg hesc]
    cases v with
    | nil => rfl
    | cons c v2 =>
      simp only [Bool.or_eq_true] at hesc
      push_neg at hesc
      obtain ⟨h1, h3⟩ := hesc
      obtain ⟨h1, h2⟩ := h1
      have hcq : ¬ (c = '\'' ∨ c = '"') := by
        rintro (h | h) <;> subst h
        · exact contains_false_not_mem ('\'' :: v2) '\'' (by simpa using h2)
            (List.mem_cons_self _ _)
        · exact contains_false_not_mem ('"' :: v2) '"' (by simpa using h3)
            (List.mem_cons_self _ _)
      dsimp only
      rw [if_neg hcq, hvtrim]

theorem aliasLine_head (n v : Str) : (aliasLine n v).head? = some 'a' := rfl

theorem aliasLine_ne_nil (n v : Str) : aliasLine n v ≠ [] := by
  unfold aliasLine
  rw [str_alias_chars]
  simp

theorem aliasLine_last (n v : Str) (hv : goodAliasValue v) :
    ∃ d, (aliasLine n v).getLast? = some d ∧ d.isWhitespace = false := by
  by_cases hesc : (v.contains ' ' || v.contains '\'' || v.contains '"') = true
  · refine ⟨'\'', ?_, by decide⟩
    have hesc2 : escapeAliasValue v = '\'' :: replaceQuote v ++ ['\''] := by
      rw [escapeAliasValue, if_pos hesc]
    have hshape : aliasLine n v
        = ((str "alias " ++ n) ++ '=' :: '\'' :: replaceQuote v) ++ ['\''] := by
      rw [aliasLine, hesc2]
      simp
    rw [hshape]
    exact List.getLast?_concat _
  · cases v with
    | nil =>
      refine ⟨'=', ?_, by decide⟩
      have hesc2 : escapeAliasValue [] = ([] : Str) := rfl
      have hshape : aliasLine n [] = (str "alias " ++ n) ++ ['='] := by
        rw [aliasLine, hesc2]
      rw [hshape]
      exact List.getLast?_concat _
    | cons c v2 =>
      have hvne : (c :: v2 : Str) ≠ [] := by simp
      obtain ⟨x, hx⟩ : ∃ x, (c :: v2 : Str).getLast? = some x := by
        cases hgl : (c :: v2 : Str).getLast? with
        | none => rw [List.getLast?_eq_none_iff] at hgl; exact absurd hgl hvne
        | some y => exact ⟨y, rfl⟩
      have hxw : x.isWhitespace = false :=
        getLast_not_ws_of_trim_stable _ hvne hv.2.2 x hx
      refine ⟨x, ?_, hxw⟩
      have he : escapeAliasValue (c :: v2) = c :: v2 := by
        rw [escapeAliasValue, if_neg hesc]
      have hshape : aliasLine n (c :: v2)
          = ((str "alias " ++ n) ++ ['=']) ++ (c :: v2) := by
        rw [aliasLine, he]
        simp
      rw [hshape, List.getLast?_append_of_ne_nil _ hvne]
      exact hx

theorem loadLine_data (m : Str → Option Str) (n v : Str)
    (hn : goodAliasName n) (hv : goodAliasValue v) :
    loadLine m (aliasLine n v) = fun k => if k = n then some v else m k := by
  have htr : trim (aliasLine n v) = aliasLine n v := by
    obtain ⟨d, hd1, hd2⟩ := aliasLine_last n v hv
    exact trim_of_ends _ 'a' d (aliasLine_head n v) (by decide) hd1 hd2
  unfold loadLine
  rw [htr]
  rw [if_neg (aliasLine_ne_nil n v)]
  rw [aliasLine_head n v]
  rw [if_neg (by simp : ¬ ((some 'a' : Option Char) = some '#'))]
  have hsp : stripPrefix (str "alias ") (aliasLine n v)
      = some (n ++ '=' :: escapeAliasValue v) := by
    have : aliasLine n v = str "alias " ++ (n ++ '=' :: escapeAliasValue v) := by
      simp [aliasLine]
    rw [this]
    exact stripPrefix_append _ _
  rw [hsp]
  dsimp only
  rw [parse_alias_line_roundtrip n v hn hv]
theorem joinLines_cons (l : Str) (ls : List Str) :
    joinLines (l :: ls) = l ++ '\n' :: joinLines ls := rfl

theorem joinLines_ne_nil (l : Str) (ls : List Str) : joinLines (l :: ls) ≠ [] := by
  rw [joinLines_cons]
  cases l <;> simp

theorem joinLines_getLast_nl (ls : List Str) (h : ls ≠ []) :
    (joinLines ls).getLast? = some '\n' := by
  induction ls with
  | nil => exact absurd rfl h
  | cons l rest ih =>
    cases rest with
    | nil => exact List.getLast?_concat l
    | cons m rest2 =>
      rw [joinLines_cons]
      rw [List.getLast?_append_of_ne_nil l (List.cons_ne_nil _ _)]
      rw [show ('\n' :: joinLines (m :: rest2) : Str) = ['\n'] ++ joinLines (m :: rest2)
          from rfl]
      rw [List.getLast?_append_of_ne_nil _ (joinLines_ne_nil m rest2)]
      exact ih (List.cons_ne_nil _ _)

theorem splitOnNl_append (l rest : Str) (h : '\n' ∉ l) :
    splitOnNl (l ++ '\n' :: rest) = l :: splitOnNl rest := by
  induction l with
  | nil => simp [splitOnNl]
  | cons c t ih =>
    have hc : ¬ c = '\n' := fun he => h (he ▸ List.mem_cons_self c t)
    have ht : '\n' ∉ t := fun hm => h (List.mem_cons_of_mem _ hm)
    rw [List.cons_append, splitOnNl, if_neg hc, ih ht]

theorem splitOnNl_joinLines (ls : List Str) (h : ∀ l ∈ ls, '\n' ∉ l) :
    splitOnNl (joinLines ls) = ls ++ [[]] := by
  induction ls with
  | nil => rfl
  | cons l rest ih =>
    rw [joinLines_cons, splitOnNl_append l _ (h l (List.mem_cons_self _ _)),
      ih (fun x hx => h x (List.mem_cons_of_mem _ hx))]
    rfl

theorem map_id_of_fix (l : List Str) (f : Str → Str) (h : ∀ x ∈ l, f x = x) :
    l.map f = l := by
  induction l with
  | nil => rfl
  | cons x t ih =>
    rw [List.map_cons, h x (List.mem_cons_self _ _),
      ih (fun y hy => h y (List.mem_cons_of_mem _ hy))]

theorem linesOf_joinLines (ls : List Str) (hne : ls ≠ [])
    (hnl : ∀ l ∈ ls, '\n' ∉ l) (hcr : ∀ l ∈ ls, l.getLast? ≠ some '\r') :
    linesOf (joinLines ls) = ls := by
  cases ls with
  | nil => exact absurd rfl hne
  | cons l rest =>
    have h1 : splitOnNl (joinLines (l :: rest)) = (l :: rest) ++ [[]] :=
      splitOnNl_joinLines _ hnl
    have h2 : (joinLines (l :: rest)).getLast? = some '\n' :=
      joinLines_getLast_nl _ (List.cons_ne_nil _ _)
    simp only [linesOf]
    rw [if_neg (joinLines_ne_nil l rest), h1, h2, if_pos rfl,
      List.dropLast_concat]
    exact map_id_of_fix _ _ (fun x hx => if_neg (hcr x hx))

theorem lookupName_eq_none (ps : List (Str × Str)) (k : Str)
    (h : k ∉ ps.map Prod.fst) : lookupName ps k = none := by
  induction ps with
  | nil => rfl
  | cons p rest ih =>
    simp only [List.map_cons, List.mem_cons, not_or] at h
    simp [lookupName, h.1, ih h.2]

theorem loadFold (ps : List (Str × Str)) :
    ∀ (m : Str → Option Str) (k : Str),
      (∀ p ∈ ps, goodAliasName p.1 ∧ goodAliasValue p.2) →
      (ps.map Prod.fst).Nodup →
      List.foldl loadLine m (ps.map (fun p => aliasLine p.1 p.2)) k
        = (match lookupName ps k with
           | some v => some v
           | none => m k) := by
  induction ps with
  | nil => intro m k _ _; rfl
  | cons p rest ih =>
    intro m k hgood hnd
    simp only [List.map_cons, List.nodup_cons] at hnd
    have hp := hgood p (List.mem_cons_self _ _)
    simp only [List.map_cons, List.foldl_cons]
    rw [loadLine_data m p.1 p.2 hp.1 hp.2]
    rw [ih _ k (fun q hq => hgood q (List.mem_cons_of_mem _ hq)) hnd.2]
    by_cases hk : k = p.1
    · subst hk
      rw [lookupName_eq_none rest p.1 hnd.1]
      simp [lookupName]
    · simp only [lookupName, if_neg hk]

theorem insortAlias_perm (p : Str × Str) (l : List (Str × Str)) :
    (insortAlias p l).Perm (p :: l) := by
  induction l with
  | nil => exact List.Perm.refl _
  | cons q qs ih =>
    rw [insortAlias]
    by_cases h : strLe p.1 q.1 = true
    · rw [if_pos h]
    · rw [if_neg h]
      exact List.Perm.trans (List.Perm.cons q ih) (List.Perm.swap p q qs)

theorem sortAliases_perm (t : List (Str × Str)) : (sortAliases t).Perm t := by
  induction t with
  | nil => exact List.Perm.refl _
  | cons p rest ih =>
    exact List.Perm.trans (insortAlias_perm p (sortAliases rest))
      (List.Perm.cons p ih)

theorem lookupName_perm (l1 l2 : List (Str × Str)) (h : List.Perm l1 l2) :
    ∀ k, (l1.map Prod.fst).Nodup → lookupName l1 k = lookupName l2 k := by
  induction h with
  | nil => intro k _; rfl
  | cons x h ih =>
    intro k hnd
    simp only [List.map_cons, List.nodup_cons] at hnd
    by_cases hk : k = x.1
    · simp [lookupName, hk]
    · simp [lookupName, hk, ih k hnd.2]
  | swap x y l =>
    intro k hnd
    simp only [List.map_cons, List.nodup_cons, List.mem_cons, not_or] at hnd
    obtain ⟨⟨hyx, _⟩, _, _⟩ := hnd
    have hxy : ¬ x.1 = y.1 := fun he => hyx he.symm
    by_cases h1 : k = x.1 <;> by_cases h2 : k = y.1
    · exact absurd (h2.symm.trans h1) hyx
    · simp [lookupName, h1, h2, hyx, hxy]
    · simp [lookupName, h1, h2, hyx, hxy]
    · simp [lookupName, h1, h2, hyx, hxy]
  | trans h1 h2 ih1 ih2 =>
    intro k hnd
    have hnd2 := ((h1.map Prod.fst).nodup_iff).mp hnd
    rw [ih1 k hnd, ih2 k hnd2]

theorem aliasLine_no_newline (n v : Str) (hn : goodAliasName n)
    (hv : goodAliasValue v) : '\n' ∉ aliasLine n v := by
  intro hm
  have hesc : '\n' ∉ escapeAliasValue v := by
    intro hm2
    rw [escapeAliasValue] at hm2
    by_cases hg : (v.contains ' ' || v.contains '\'' || v.contains '"') = true
    · rw [if_pos hg] at hm2
      simp only [List.mem_cons, List.mem_append, List.mem_singleton] at hm2
      rcases hm2 with (h | h) | h
      · exact absurd h (by decide)
      · rcases mem_replaceQuote v '\n' h with h2 | h2 | h2
        · exact hv.2.1 h2
        · exact absurd h2 (by decide)
        · exact absurd h2 (by decide)
      · exact absurd h (by decide)
    · rw [if_neg hg] at hm2
      exact hv.2.1 hm2
  rw [aliasLine] at hm
  simp only [List.mem_append, List.mem_cons] at hm
  rcases hm with (h | h) | h | h
  · exact absurd h (by decide)
  · exact hn.2.2.1 h
  · exact absurd h (by decide)
  · exact hesc h

theorem aliasLine_no_cr (n v : Str) (hv : goodAliasValue v) :
    (aliasLine n v).getLast? ≠ some '\r' := by
  obtain ⟨d, hd1, hd2⟩ := aliasLine_last n v hv
  rw [hd1]
  intro hEq
  have : d = '\r' := by injection hEq
  rw [this] at hd2
  exact absurd hd2 (by decide)

/-- The three header/blank lines at the top of the saved file are skipped by
`loadLine` (comment lines and blank lines leave the table unchanged). -/
theorem headers_skipped (m : Str → Option Str) :
    List.foldl loadLine m
      [str "# Squish aliases - auto-generated", str "# Format: alias name='value'", []]
      = m := rfl

/-- C8. Corrected round trip: for every alias table whose names are nonempty,
`=`-free, newline-free and trim-stable, whose values are newline-free,
trim-stable and contain NO single quote, and whose names are distinct,
`load_from_file` after `save_to_file` restores exactly the original
name-to-value mapping (spaces and double quotes in values are fine; embedded
single quotes are not, despite the `'\''` escaping — see the counterexample). -/
theorem c8_good_table_roundtrip (t : List (Str × Str))
    (hgood : ∀ p ∈ t, goodAliasName p.1 ∧ goodAliasValue p.2)
    (hnd : (t.map Prod.fst).Nodup) (k : Str) :
    load_from_file (save_to_file t) k = lookupName t k := by
  have hperm := sortAliases_perm t
  have hgood2 : ∀ p ∈ sortAliases t, goodAliasName p.1 ∧ goodAliasValue p.2 :=
    fun p hp => hgood p (hperm.mem_iff.mp hp)
  have hnd2 : ((sortAliases t).map Prod.fst).Nodup :=
    ((hperm.map Prod.fst).nodup_iff).mpr hnd
  have hlines : linesOf (save_to_file t)
      = [str "# Squish aliases - auto-generated", str "# Format: alias name='value'", []]
        ++ (sortAliases t).map (fun p => aliasLine p.1 p.2) := by
    rw [save_to_file]
    apply linesOf_joinLines
    · exact List.cons_ne_nil _ _
    · intro l hl
      simp only [List.mem_append, List.mem_cons, List.mem_map] at hl
      rcases hl with (h | h | h | h) | ⟨p, hp, hpl⟩
      · rw [h]; decide
      · rw [h]; decide
      · rw [h]; simp
      · cases h
      · rw [← hpl]
        exact aliasLine_no_newline p.1 p.2 (hgood2 p hp).1 (hgood2 p hp).2
    · intro l hl
      simp only [List.mem_append, List.mem_cons, List.mem_map] at hl
      rcases hl with (h | h | h | h) | ⟨p, hp, hpl⟩
      · rw [h]; decide
      · rw [h]; decide
      · rw [h]; simp
      · cases h
      · rw [← hpl]
        exact aliasLine_no_cr p.1 p.2 (hgood2 p hp).2
  rw [load_from_file, hlines, List.foldl_append, headers_skipped]
  rw [loadFold (sortAliases t) _ k hgood2 hnd2]
  rw [lookupName_perm (sortAliases t) t hperm k hnd2]
  cases lookupName t k <;> rfl

/-- C8 counterexample: a value with an embedded single quote does NOT survive
the round trip. `save_to_file` writes `alias x='a'\''b'` but `parse_alias_line`
scans only to the FIRST closing quote, so the alias `x = a'b` reloads as
`x = a`. -/
theorem c8_counterexample :
    load_from_file (save_to_file [(str "x", str "a'b")]) (str "x") = some (str "a")
  ∧ lookupName [(str "x", str "a'b")] (str "x") = some (str "a'b")
  ∧ str "a" ≠ str "a'b" := by
  refine ⟨by decide, by decide, by decide⟩

/-- C8 witness: the corrected round trip evaluated on a concrete two-alias
table (one value with spaces, one with a double quote), at a concrete key. -/
theorem c8_witness :
    (∀ p ∈ [(str "ll", str "ls -la"), (str "g", str "grep \"x\"")],
        goodAliasName p.1 ∧ goodAliasValue p.2)
  ∧ (([(str "ll", str "ls -la"), (str "g", str "grep \"x\"")].map Prod.fst).Nodup)
  ∧ load_from_file (save_to_file [(str "ll", str "ls -la"), (str "g", str "grep \"x\"")])
      (str "ll")
      = lookupName [(str "ll", str "ls -la"), (str "g", str "grep \"x\"")] (str "ll") :=
  ⟨by decide, by decide,
    c8_good_table_roundtrip _ (by decide) (by decide) (str "ll")⟩

end Squish
